import Mathlib

/-!
Verification of the shared-ledger settlement engine and budget alerting
logic of the MoneyTrack web system, shallowly embedded from
`shared_ledger/models.py` and `budgets/models.py`.  Monetary `Decimal`
values are modelled as rationals (`ℚ`); a value stored into a
2-decimal-place column is the half-even quantization of the computed
quotient (see `quantize2`); timestamps are natural numbers; database rows
are structures in lists.
-/

namespace MoneyTrack

/-- Member status choices of `SharedLedgerMember.STATUS_CHOICES`. -/
inductive MemberStatus where
  | active
  | invited
  | inactive
  | removed
deriving DecidableEq, Repr

/-- Member role choices of `SharedLedgerMember.ROLE_CHOICES`. -/
inductive Role where
  | admin
  | member
  | viewer
deriving DecidableEq, Repr

/-- Split method choices of `SharedExpense.SPLIT_METHODS`. -/
inductive SplitMethod where
  | equal
  | exact
  | percentage
  | shares
deriving DecidableEq, Repr

/-- Invite status choices of `SharedLedgerInvite.STATUS_CHOICES`. -/
inductive InviteStatus where
  | pending
  | accepted
  | declined
  | expired
  | cancelled
deriving DecidableEq, Repr

/-- Error kinds of the spec's error-handling design (§7). -/
inductive LedgerError where
  | ValidationError
  | StateError
  | NotFoundError
deriving DecidableEq, Repr

/-- A row of `shared_ledger_members` (`SharedLedgerMember`): `id` is the
database primary key, `user` the id of the underlying user. -/
structure Member where
  id : Nat
  user : Nat
  role : Role
  status : MemberStatus
deriving DecidableEq, Repr

/-- A row of `shared_expenses` (`SharedExpense`), restricted to the fields
the settlement engine reads. -/
structure Expense where
  id : Nat
  amount : ℚ
  paid_by : Nat
  split_method : SplitMethod
deriving DecidableEq, Repr

/-- A row of `shared_expense_splits` (`SharedExpenseSplit`). -/
structure Split where
  expense_id : Nat
  member_id : Nat
  amount : ℚ
  percentage : ℚ
  shares : Nat
  is_settled : Bool
  settled_at : Option Nat
  settlement_method : String
deriving DecidableEq, Repr

/-- The database key `unique_together = [expense, member]` of a split. -/
def splitKey (s : Split) : Nat × Nat := (s.expense_id, s.member_id)

/-- A row of `shared_payments` (`SharedPayment`); `related_splits` holds the
keys of the splits referenced through the many-to-many relation. -/
structure Payment where
  from_member : Nat
  to_member : Nat
  amount : ℚ
  payment_method : String
  is_confirmed : Bool
  confirmed_by : Option Nat
  confirmed_at : Option Nat
  related_splits : List (Nat × Nat)
deriving DecidableEq, Repr

/-- A row of `shared_ledger_invites` (`SharedLedgerInvite`). -/
structure Invite where
  status : InviteStatus
  expires_at : Nat
  proposed_role : Role
  invited_by : Nat
  created_at : Nat
  invited_user : Option Nat
  responded_at : Option Nat
deriving DecidableEq, Repr

/-- A `SharedLedger` with its related rows (`members`, `expenses`, and the
splits of all of its expenses). -/
structure Ledger where
  members : List Member
  expenses : List Expense
  splits : List Split
deriving DecidableEq, Repr

/-- The active members of a ledger:
`self.ledger.members.filter(status='active')`. -/
def activeMembers (ms : List Member) : List Member :=
  ms.filter fun m => m.status = MemberStatus.active

/-- Round a rational to the nearest integer, ties to even — the
`decimal.ROUND_HALF_EVEN` mode that is the default of Python's `Decimal`
context and of decimal-column quantization. -/
def roundHalfEven (q : ℚ) : ℤ :=
  let f := ⌊q⌋
  let r := q - f
  if r < 1/2 then f
  else if 1/2 < r then f + 1
  else if f % 2 = 0 then f else f + 1

/-- The value a `DecimalField(decimal_places=2)` column stores for a
computed quotient: its half-even quantization to 2 decimal places.  Python
first rounds the `Decimal` quotient to the context's 28 significant digits
and the column then quantizes to 2 decimal places; both roundings are
half-even and the column's is far coarser for the column's 15-digit
amounts, so the stored value is modelled by the single 2-decimal-place
quantization of the exact quotient. -/
def quantize2 (q : ℚ) : ℚ := (roundHalfEven (q * 100) : ℚ) / 100

/-- The split row created by `SharedExpenseSplit.objects.get_or_create`'s
`defaults` in `create_equal_splits`: `is_settled`, `settled_at` and
`settlement_method` take their model-field defaults. -/
def default_split (eid mid : Nat) (amt pct : ℚ) : Split :=
  { expense_id := eid, member_id := mid, amount := amt, percentage := pct,
    shares := 1, is_settled := false, settled_at := none,
    settlement_method := "" }

/-- `SharedExpenseSplit.objects.get_or_create(expense=.., member=.., defaults=..)`:
if a split with the given `(expense, member)` key exists it is returned
unchanged, otherwise a new row with the default field values is inserted. -/
def get_or_create (acc : List Split) (eid mid : Nat) (amt pct : ℚ) : List Split :=
  if ∃ s ∈ acc, splitKey s = (eid, mid) then acc
  else acc ++ [default_split eid mid amt pct]

/-- `SharedExpense.create_equal_splits`: computes
`amount_per_person = self.amount / active_members.count()` (a Python
`Decimal` division that raises when the count is zero, modelled by `none`)
and runs `get_or_create` for each active member.  The persisted per-person
amount and percentage are what the 2-decimal-place columns store for the
quotients `amount / count` and `100 / count` (see `quantize2`); no
remainder-allocation rule exists in the source. -/
def create_equal_splits (e : Expense) (ms : List Member) (splits : List Split) :
    Option (List Split) :=
  let active := activeMembers ms
  if active.length = 0 then none
  else
    let amount_per_person := quantize2 (e.amount / (active.length : ℚ))
    some (active.foldl
      (fun acc m =>
        get_or_create acc e.id m.id amount_per_person
          (quantize2 ((100 : ℚ) / (active.length : ℚ))))
      splits)

/-- `SharedExpense.save` on a new row: after the row is inserted,
equal splits are auto-created when `split_method == 'equal'`. -/
def save_new (e : Expense) (ms : List Member) (splits : List Split) :
    Option (List Split) :=
  if e.split_method = SplitMethod.equal then create_equal_splits e ms splits
  else some splits

/-- `get_or_create` only ever appends: the accumulator is a prefix of the
result and every appended row is the default split. -/
lemma get_or_create_append (acc : List Split) (eid mid : Nat) (amt pct : ℚ) :
    ∃ t, get_or_create acc eid mid amt pct = acc ++ t ∧
      ∀ x ∈ t, x = default_split eid mid amt pct := by
  unfold get_or_create
  split
  · exact ⟨[], by simp⟩
  · exact ⟨[default_split eid mid amt pct], rfl, by simp⟩

/-- When no split with the key exists, `get_or_create` appends the default
row. -/
lemma get_or_create_of_fresh (acc : List Split) (eid mid : Nat) (amt pct : ℚ)
    (h : ¬ ∃ s ∈ acc, splitKey s = (eid, mid)) :
    get_or_create acc eid mid amt pct = acc ++ [default_split eid mid amt pct] := by
  unfold get_or_create
  exact if_neg h

/-- When a split with the key exists, `get_or_create` leaves the list
unchanged. -/
lemma get_or_create_of_found (acc : List Split) (eid mid : Nat) (amt pct : ℚ)
    (h : ∃ s ∈ acc, splitKey s = (eid, mid)) :
    get_or_create acc eid mid amt pct = acc := by
  unfold get_or_create
  exact if_pos h

/-- Running the `create_equal_splits` loop over members none of whom has an
existing split appends exactly one default split per member. -/
lemma foldl_get_or_create_fresh (eid : Nat) (amt pct : ℚ) :
    ∀ (l : List Member) (acc : List Split),
      (l.map Member.id).Nodup →
      (∀ m ∈ l, ¬ ∃ s ∈ acc, splitKey s = (eid, m.id)) →
      l.foldl (fun acc m => get_or_create acc eid m.id amt pct) acc
        = acc ++ l.map (fun m => default_split eid m.id amt pct) := by
  intro l
  induction l with
  | nil => intro acc _ _; simp
  | cons m tl ih =>
    intro acc hnd hfr
    have hstep : get_or_create acc eid m.id amt pct
        = acc ++ [default_split eid m.id amt pct] :=
      get_or_create_of_fresh acc eid m.id amt pct (hfr m (by simp))
    have hnd' : (tl.map Member.id).Nodup := (List.nodup_cons.mp hnd).2
    have hmid : m.id ∉ tl.map Member.id := (List.nodup_cons.mp hnd).1
    have hfr' : ∀ m' ∈ tl,
        ¬ ∃ s ∈ acc ++ [default_split eid m.id amt pct],
          splitKey s = (eid, m'.id) := by
      intro m' hm' ⟨s, hs, hkey⟩
      rcases List.mem_append.mp hs with hsl | hsr
      · exact hfr m' (List.mem_cons_of_mem _ hm') ⟨s, hsl, hkey⟩
      · have : s = default_split eid m.id amt pct := by simpa using hsr
        subst this
        have : m.id = m'.id := by
          simpa [splitKey, default_split] using hkey
        exact hmid (this ▸ List.mem_map_of_mem Member.id hm')
    calc (m :: tl).foldl (fun acc m => get_or_create acc eid m.id amt pct) acc
        = tl.foldl (fun acc m => get_or_create acc eid m.id amt pct)
            (acc ++ [default_split eid m.id amt pct]) := by
          simp [List.foldl_cons, hstep]
      _ = acc ++ [default_split eid m.id amt pct]
            ++ tl.map (fun m => default_split eid m.id amt pct) := ih _ hnd' hfr'
      _ = acc ++ (m :: tl).map (fun m => default_split eid m.id amt pct) := by
          simp

/-- The `create_equal_splits` loop only appends rows, and every appended row
is a default split of one of the iterated members. -/
lemma foldl_get_or_create_prefix (eid : Nat) (amt pct : ℚ) :
    ∀ (l : List Member) (acc : List Split),
      ∃ t, l.foldl (fun acc m => get_or_create acc eid m.id amt pct) acc
          = acc ++ t ∧
        ∀ x ∈ t, ∃ m ∈ l, x = default_split eid m.id amt pct := by
  intro l
  induction l with
  | nil => intro acc; exact ⟨[], by simp⟩
  | cons m tl ih =>
    intro acc
    obtain ⟨t₁, ht₁, hx₁⟩ := get_or_create_append acc eid m.id amt pct
    obtain ⟨t₂, ht₂, hx₂⟩ := ih (acc ++ t₁)
    refine ⟨t₁ ++ t₂, ?_, ?_⟩
    · simp [List.foldl_cons, ht₁, ht₂]
    · intro x hx
      rcases List.mem_append.mp hx with h | h
      · exact ⟨m, by simp, hx₁ x h⟩
      · obtain ⟨m', hm', hxm'⟩ := hx₂ x h
        exact ⟨m', List.mem_cons_of_mem _ hm', hxm'⟩

/-- Sum of a constant list of rationals. -/
lemma sum_map_const {α : Type} (l : List α) (c : ℚ) :
    (l.map fun _ => c).sum = (l.length : ℚ) * c := by
  induction l with
  | nil => simp
  | cons a t ih => simp [ih]; ring

/-- C9: `create_equal_splits` computes `self.amount / active_members.count()`
with no guard, which raises a division error exactly when the ledger has no
active member (modelled by `none`); equal-split generation is total only
under the precondition of at least one active member. -/
theorem spec_C9 (e : Expense) (ms : List Member) (splits : List Split) :
    create_equal_splits e ms splits = none ↔ activeMembers ms = [] := by
  unfold create_equal_splits
  by_cases h : (activeMembers ms).length = 0
  · simp [h, List.length_eq_zero.mp h]
  · have hne : activeMembers ms ≠ [] := by
      intro he
      exact h (by simp [he])
    simp [h, hne]

theorem spec_C9_witness :
    create_equal_splits ⟨1, 100, 1, SplitMethod.equal⟩
      [⟨1, 1, Role.member, MemberStatus.inactive⟩] [] = none :=
  (spec_C9 ⟨1, 100, 1, SplitMethod.equal⟩
    [⟨1, 1, Role.member, MemberStatus.inactive⟩] []).mpr (by decide)

/-- Evaluate `quantize2` when the scaled value falls below the half-way
point above its floor. -/
lemma quantize2_eq_of_lt_half (q : ℚ) (n : ℤ)
    (h1 : (n : ℚ) ≤ q * 100) (h2 : q * 100 < (n : ℚ) + 1)
    (h3 : q * 100 - (n : ℚ) < 1/2) :
    quantize2 q = (n : ℚ) / 100 := by
  have hf : ⌊q * 100⌋ = n := by
    rw [Int.floor_eq_iff]
    exact ⟨h1, h2⟩
  simp only [quantize2, roundHalfEven]
  rw [hf, if_pos h3]

/-- C1 counterexample: an Expense of 100 with `split_method = equal` in a
ledger with 3 active members stores three splits of 33.33 each (the
2-decimal-place column value of `100 / 3`), whose amounts sum to 99.99,
not the expense amount 100 — the program has no remainder rule, so the
claimed sum-equals-amount property fails. -/
theorem spec_C1_counterexample :
    save_new ⟨1, 100, 1, SplitMethod.equal⟩
        [⟨1, 1, Role.admin, MemberStatus.active⟩,
         ⟨2, 2, Role.member, MemberStatus.active⟩,
         ⟨3, 3, Role.member, MemberStatus.active⟩] []
      = some [default_split 1 1 (3333/100) (3333/100),
              default_split 1 2 (3333/100) (3333/100),
              default_split 1 3 (3333/100) (3333/100)] ∧
    (([default_split 1 1 (3333/100) (3333/100),
       default_split 1 2 (3333/100) (3333/100),
       default_split 1 3 (3333/100) (3333/100)].map Split.amount).sum
      ≠ (⟨1, 100, 1, SplitMethod.equal⟩ : Expense).amount) := by
  have hq : quantize2 ((100 : ℚ) / 3) = 3333/100 := by
    rw [quantize2_eq_of_lt_half ((100 : ℚ) / 3) 3333 (by norm_num) (by norm_num)
      (by norm_num)]
    norm_num
  constructor
  · simp [save_new, create_equal_splits, activeMembers, get_or_create,
      default_split, splitKey, hq]
  · simp [default_split]
    norm_num

/-- C1 (amended): saving a new Expense with `split_method = equal` in a
ledger with `N ≥ 1` active members creates exactly `N` splits, one default
split per active member, each with amount equal to the 2-decimal-place
column value of `expense.amount / N`; the generated amounts sum to `N`
times that stored share, which equals the expense amount exactly when the
quotient is representable at 2 decimal places (no rounding remainder), but
not in general. -/
theorem spec_C1 (e : Expense) (ms : List Member) (splits : List Split)
    (hmethod : e.split_method = SplitMethod.equal)
    (hN : 0 < (activeMembers ms).length)
    (hids : ((activeMembers ms).map Member.id).Nodup)
    (hfresh : ∀ s ∈ splits, s.expense_id ≠ e.id) :
    ∃ out, save_new e ms splits = some out ∧
      out.filter (fun s => s.expense_id = e.id)
        = (activeMembers ms).map (fun m =>
            default_split e.id m.id
              (quantize2 (e.amount / ((activeMembers ms).length : ℚ)))
              (quantize2 (100 / ((activeMembers ms).length : ℚ)))) ∧
      (out.filter (fun s => s.expense_id = e.id)).length
        = (activeMembers ms).length ∧
      (∀ s ∈ out.filter (fun s => s.expense_id = e.id),
        s.amount = quantize2 (e.amount / ((activeMembers ms).length : ℚ))) ∧
      ((out.filter (fun s => s.expense_id = e.id)).map Split.amount).sum
        = ((activeMembers ms).length : ℚ)
            * quantize2 (e.amount / ((activeMembers ms).length : ℚ)) ∧
      (quantize2 (e.amount / ((activeMembers ms).length : ℚ))
          = e.amount / ((activeMembers ms).length : ℚ) →
        ((out.filter (fun s => s.expense_id = e.id)).map Split.amount).sum
          = e.amount) := by
  set N := (activeMembers ms).length with hNdef
  set q2 := quantize2 (e.amount / (N : ℚ)) with hq2def
  set P := quantize2 ((100 : ℚ) / (N : ℚ)) with hPdef
  have hlen : N ≠ 0 := Nat.pos_iff_ne_zero.mp hN
  have hfr : ∀ m ∈ activeMembers ms, ¬ ∃ s ∈ splits, splitKey s = (e.id, m.id) := by
    intro m _ ⟨s, hs, hkey⟩
    exact hfresh s hs (by simpa [splitKey] using congrArg Prod.fst hkey)
  have hout : save_new e ms splits
      = some (splits ++ (activeMembers ms).map
          (fun m => default_split e.id m.id q2 P)) := by
    unfold save_new create_equal_splits
    rw [if_pos hmethod, if_neg hlen]
    exact congrArg some
      (foldl_get_or_create_fresh e.id q2 P (activeMembers ms) splits hids hfr)
  have h₁ : splits.filter (fun s => s.expense_id = e.id) = [] := by
    apply List.filter_eq_nil_iff.mpr
    intro s hs
    simpa using hfresh s hs
  have h₂ : ((activeMembers ms).map
        (fun m => default_split e.id m.id q2 P)).filter
          (fun s => s.expense_id = e.id)
      = (activeMembers ms).map (fun m => default_split e.id m.id q2 P) := by
    apply List.filter_eq_self.mpr
    intro s hs
    obtain ⟨m, _, rfl⟩ := List.mem_map.mp hs
    simp [default_split]
  have hfilter : (splits ++ (activeMembers ms).map
        (fun m => default_split e.id m.id q2 P)).filter
          (fun s => s.expense_id = e.id)
      = (activeMembers ms).map (fun m => default_split e.id m.id q2 P) := by
    rw [List.filter_append, h₁, h₂, List.nil_append]
  have hsum : (((activeMembers ms).map
        (fun m => default_split e.id m.id q2 P)).map Split.amount).sum
      = (N : ℚ) * q2 := by
    rw [List.map_map]
    have hconst : (Split.amount ∘ fun (m : Member) => default_split e.id m.id q2 P)
        = fun (_ : Member) => q2 := rfl
    rw [hconst, sum_map_const, ← hNdef]
  refine ⟨_, hout, hfilter, ?_, ?_, ?_, ?_⟩
  · rw [hfilter, List.length_map]
  · intro s hs
    rw [hfilter] at hs
    obtain ⟨m, _, rfl⟩ := List.mem_map.mp hs
    rfl
  · rw [hfilter, hsum]
  · intro hexact
    rw [hfilter, hsum, hexact]
    have hQ : (N : ℚ) ≠ 0 := Nat.cast_ne_zero.mpr hlen
    rw [mul_comm, div_mul_cancel₀ e.amount hQ]

theorem spec_C1_witness :
    ∃ out,
      save_new ⟨7, 100, 1, SplitMethod.equal⟩
        [⟨1, 1, Role.admin, MemberStatus.active⟩,
         ⟨2, 2, Role.member, MemberStatus.active⟩] [] = some out ∧
      (out.filter (fun s => s.expense_id = 7)).length = 2 ∧
      (∀ s ∈ out.filter (fun s => s.expense_id = 7), s.amount = 50) ∧
      ((out.filter (fun s => s.expense_id = 7)).map Split.amount).sum = 100 := by
  have hq : quantize2 ((100 : ℚ) / 2) = 50 := by
    rw [quantize2_eq_of_lt_half ((100 : ℚ) / 2) 5000 (by norm_num) (by norm_num)
      (by norm_num)]
    norm_num
  obtain ⟨out, h1, _hfeq, h3, h4, _hsum, h6⟩ :=
    spec_C1 ⟨7, 100, 1, SplitMethod.equal⟩
      [⟨1, 1, Role.admin, MemberStatus.active⟩,
       ⟨2, 2, Role.member, MemberStatus.active⟩] []
      rfl (by decide) (by decide) (by simp)
  refine ⟨out, h1, by simpa [activeMembers] using h3, ?_, ?_⟩
  · intro s hs
    have hamount := h4 s hs
    rw [hamount]
    simpa [activeMembers] using hq
  · apply h6
    have hq' : quantize2 ((100 : ℚ) / 2) = (100 : ℚ) / 2 := by
      rw [hq]
      norm_num
    simpa [activeMembers] using hq'

/-- `get_or_create` preserves the uniqueness of `(expense, member)` keys. -/
lemma get_or_create_keys_nodup (acc : List Split) (eid mid : Nat) (amt pct : ℚ)
    (h : (acc.map splitKey).Nodup) :
    ((get_or_create acc eid mid amt pct).map splitKey).Nodup := by
  unfold get_or_create
  split
  · exact h
  · rename_i hne
    rw [List.map_append]
    rw [List.nodup_append]
    refine ⟨h, by simp, ?_⟩
    intro k hk
    simp only [List.map_cons, List.map_nil, List.mem_singleton]
    intro hk'
    obtain ⟨s, hs, hks⟩ := List.mem_map.mp hk
    subst hk'
    have : splitKey (default_split eid mid amt pct) = (eid, mid) := rfl
    exact hne ⟨s, hs, by rw [hks, this]⟩

/-- The `create_equal_splits` loop preserves key uniqueness. -/
lemma foldl_get_or_create_keys_nodup (eid : Nat) (amt pct : ℚ) :
    ∀ (l : List Member) (acc : List Split),
      (acc.map splitKey).Nodup →
      ((l.foldl (fun acc m => get_or_create acc eid m.id amt pct) acc).map
        splitKey).Nodup := by
  intro l
  induction l with
  | nil => intro acc h; simpa using h
  | cons m tl ih =>
    intro acc h
    exact ih _ (get_or_create_keys_nodup acc eid m.id amt pct h)

/-- C7 counterexample: re-invoking `create_equal_splits` for an existing
`(expense, member)` pair does NOT update the existing split with the newly
computed amount.  Expense 1 (amount 100) is first split among the single
active member 1 (split amount 100); after member 2 becomes active, the
newly computed equal share is 50, yet re-invocation leaves member 1's split
at amount 100 (`get_or_create` returns the existing row unchanged). -/
theorem spec_C7_counterexample :
    create_equal_splits ⟨1, 100, 1, SplitMethod.equal⟩
        [⟨1, 1, Role.admin, MemberStatus.active⟩] []
      = some [default_split 1 1 100 100] ∧
    create_equal_splits ⟨1, 100, 1, SplitMethod.equal⟩
        [⟨1, 1, Role.admin, MemberStatus.active⟩,
         ⟨2, 2, Role.member, MemberStatus.active⟩]
        [default_split 1 1 100 100]
      = some [default_split 1 1 100 100, default_split 1 2 50 50] ∧
    (default_split 1 1 100 100).amount ≠
      quantize2 ((⟨1, 100, 1, SplitMethod.equal⟩ : Expense).amount / 2) := by
  have hq1 : quantize2 (100 : ℚ) = 100 := by
    rw [quantize2_eq_of_lt_half (100 : ℚ) 10000 (by norm_num) (by norm_num)
      (by norm_num)]
    norm_num
  have hq2 : quantize2 ((100 : ℚ) / 2) = 50 := by
    rw [quantize2_eq_of_lt_half ((100 : ℚ) / 2) 5000 (by norm_num) (by norm_num)
      (by norm_num)]
    norm_num
  refine ⟨?_, ?_, ?_⟩
  · simp [create_equal_splits, activeMembers, get_or_create, default_split,
      splitKey, hq1]
  · simp [create_equal_splits, activeMembers, get_or_create, default_split,
      splitKey, hq2]
  · show (100 : ℚ) ≠ quantize2 ((100 : ℚ) / 2)
    rw [hq2]
    norm_num

/-- C7 amended: re-invoking the split-generation policy never duplicates and
never modifies an existing split — the input rows survive unchanged as a
prefix of the output, and when the input has at most one split per
`(expense, member)` pair, so does the output. -/
theorem spec_C7_amended (e : Expense) (ms : List Member)
    (splits out : List Split)
    (hout : create_equal_splits e ms splits = some out) :
    (∃ t, out = splits ++ t) ∧
    ((splits.map splitKey).Nodup → (out.map splitKey).Nodup) := by
  unfold create_equal_splits at hout
  by_cases h : (activeMembers ms).length = 0
  · rw [if_pos h] at hout
    cases hout
  · rw [if_neg h] at hout
    have heq := Option.some.inj hout
    constructor
    · obtain ⟨t, ht, _⟩ := foldl_get_or_create_prefix e.id
        (quantize2 (e.amount / ((activeMembers ms).length : ℚ)))
        (quantize2 ((100 : ℚ) / ((activeMembers ms).length : ℚ)))
        (activeMembers ms) splits
      exact ⟨t, by rw [← heq, ht]⟩
    · intro hnd
      rw [← heq]
      exact foldl_get_or_create_keys_nodup e.id _ _ (activeMembers ms) splits hnd

theorem spec_C7_amended_witness :
    (∃ t, [default_split 1 1 100 100, default_split 1 2 50 50]
        = [default_split 1 1 100 100] ++ t) ∧
    (([default_split 1 1 100 100, default_split 1 2 50 50].map
        splitKey).Nodup) := by
  have h := spec_C7_amended ⟨1, 100, 1, SplitMethod.equal⟩
    [⟨1, 1, Role.admin, MemberStatus.active⟩,
     ⟨2, 2, Role.member, MemberStatus.active⟩]
    [default_split 1 1 100 100]
    [default_split 1 1 100 100, default_split 1 2 50 50]
    (by have hq2 : quantize2 ((100 : ℚ) / 2) = 50 := by
          rw [quantize2_eq_of_lt_half ((100 : ℚ) / 2) 5000 (by norm_num)
            (by norm_num) (by norm_num)]
          norm_num
        simp [create_equal_splits, activeMembers, get_or_create, default_split,
          splitKey, hq2])
  exact ⟨h.1, h.2 (by simp [splitKey, default_split])⟩

/-- One entry of the dictionary returned by
`SharedLedger.calculate_balances`, keyed by `member.user.id`. -/
structure BalanceEntry where
  user : Nat
  total_paid : ℚ
  total_share : ℚ
  balance : ℚ
deriving DecidableEq, Repr

/-- `SharedLedger.calculate_balances`: for every member row of the ledger,
`total_paid` sums the amounts of the expenses the member's user paid, and
`total_share` walks all expenses, adding the first split of that expense
assigned to the member (`expense.splits.filter(member=member).first()`),
when one exists. -/
def calculate_balances (ld : Ledger) : List BalanceEntry :=
  ld.members.map fun m =>
    let total_paid :=
      ((ld.expenses.filter fun e => e.paid_by = m.user).map Expense.amount).sum
    let total_share := ld.expenses.foldl
      (fun acc e =>
        match ld.splits.find?
            (fun s => s.expense_id = e.id ∧ s.member_id = m.id) with
        | some s => acc + s.amount
        | none => acc)
      (0 : ℚ)
    { user := m.user, total_paid := total_paid, total_share := total_share,
      balance := total_paid - total_share }

/-- The share one expense contributes to a member's `total_share`. -/
def shareOf (S : List Split) (eid mid : Nat) : ℚ :=
  match S.find? (fun s => s.expense_id = eid ∧ s.member_id = mid) with
  | some s => s.amount
  | none => 0

/-- The `total_share` fold accumulates `shareOf` over the expenses. -/
lemma foldl_share_eq (S : List Split) (mid : Nat) :
    ∀ (E : List Expense) (init : ℚ),
      E.foldl
        (fun acc e =>
          match S.find? (fun s => s.expense_id = e.id ∧ s.member_id = mid) with
          | some s => acc + s.amount
          | none => acc)
        init
      = init + (E.map (fun e => shareOf S e.id mid)).sum := by
  intro E
  induction E with
  | nil => intro init; simp
  | cons e E' ih =>
    intro init
    rw [List.foldl_cons, ih, List.map_cons, List.sum_cons]
    unfold shareOf
    cases S.find? (fun s => s.expense_id = e.id ∧ s.member_id = mid) with
    | none => simp
    | some s => simp; ring

/-- Sums of a list split along two pointwise-disjoint filters. -/
lemma sum_filter_or {α : Type} (g : α → ℚ) (p q : α → Bool) :
    ∀ (l : List α), (∀ x ∈ l, ¬(p x = true ∧ q x = true)) →
      ((l.filter fun x => p x || q x).map g).sum
        = ((l.filter p).map g).sum + ((l.filter q).map g).sum := by
  intro l
  induction l with
  | nil => intro _; simp
  | cons x l' ih =>
    intro hd
    have hd' : ∀ y ∈ l', ¬(p y = true ∧ q y = true) := fun y hy =>
      hd y (List.mem_cons_of_mem _ hy)
    have hih := ih hd'
    by_cases hp : p x = true
    · have hq : q x = false := by
        cases hqq : q x with
        | false => rfl
        | true => exact absurd ⟨hp, hqq⟩ (hd x (by simp))
      simp [List.filter_cons, hp, hq, hih]
      ring
    · have hp' : p x = false := by simpa using hp
      by_cases hq : q x = true
      · simp [List.filter_cons, hp', hq, hih]
        ring
      · have hq' : q x = false := by simpa using hq
        simp [List.filter_cons, hp', hq', hih]

/-- With unique `(expense, member)` keys, filtering for a key returns the
`find?` result (at most one row matches). -/
lemma filter_key_of_nodup (eid mid : Nat) :
    ∀ (S : List Split), (S.map splitKey).Nodup →
      S.filter (fun s => s.expense_id = eid ∧ s.member_id = mid)
        = (S.find? (fun s => s.expense_id = eid ∧ s.member_id = mid)).toList := by
  intro S
  induction S with
  | nil => intro _; simp
  | cons s S' ih =>
    intro hnd
    have hnd' : (S'.map splitKey).Nodup := (List.nodup_cons.mp hnd).2
    have hkey : splitKey s ∉ S'.map splitKey := (List.nodup_cons.mp hnd).1
    by_cases hs : s.expense_id = eid ∧ s.member_id = mid
    · have hfilter' : S'.filter
          (fun s => s.expense_id = eid ∧ s.member_id = mid) = [] := by
        apply List.filter_eq_nil_iff.mpr
        intro x hx
        simp only [decide_eq_true_eq, not_and]
        intro h1 h2
        apply hkey
        have hxs : splitKey x = splitKey s := by
          simp [splitKey, h1, h2, hs.1, hs.2]
        exact hxs ▸ List.mem_map_of_mem splitKey hx
      have h1 : List.filter
            (fun s => decide (s.expense_id = eid ∧ s.member_id = mid)) (s :: S')
          = s :: List.filter
              (fun s => decide (s.expense_id = eid ∧ s.member_id = mid)) S' := by
        simp [List.filter_cons, hs.1, hs.2]
      have h2 : List.find?
            (fun s => decide (s.expense_id = eid ∧ s.member_id = mid)) (s :: S')
          = some s := by
        simp [List.find?_cons, hs.1, hs.2]
      rw [h1, h2, hfilter']
      rfl
    · simp [List.filter_cons, List.find?_cons, hs]
      simpa using ih hnd'

/-- `shareOf` is the sum of the (at most one) split with the given key. -/
lemma shareOf_eq_sum (S : List Split) (eid mid : Nat)
    (hnd : (S.map splitKey).Nodup) :
    shareOf S eid mid
      = ((S.filter fun s => s.expense_id = eid ∧ s.member_id = mid).map
          Split.amount).sum := by
  rw [filter_key_of_nodup eid mid S hnd]
  unfold shareOf
  cases S.find? (fun s => s.expense_id = eid ∧ s.member_id = mid) with
  | none => simp
  | some s => simp

/-- Walking the expenses and taking each expense's first matching split
equals summing the member's splits whose expense occurs in the walked list,
provided expense ids and split keys are unique. -/
lemma sum_shareOf (mid : Nat) :
    ∀ (E : List Expense) (S : List Split),
      (E.map Expense.id).Nodup →
      (S.map splitKey).Nodup →
      (E.map (fun e => shareOf S e.id mid)).sum
        = ((S.filter fun s =>
            s.expense_id ∈ E.map Expense.id ∧ s.member_id = mid).map
            Split.amount).sum := by
  intro E
  induction E with
  | nil => intro S _ _; simp
  | cons e E' ih =>
    intro S hE hS
    have hE' : (E'.map Expense.id).Nodup :=
      (List.nodup_cons.mp (by simpa using hE)).2
    have heid : e.id ∉ E'.map Expense.id :=
      (List.nodup_cons.mp (by simpa using hE)).1
    rw [List.map_cons, List.sum_cons, ih S hE' hS, shareOf_eq_sum S e.id mid hS]
    have hsplit : S.filter (fun s =>
          decide (s.expense_id ∈ (e :: E').map Expense.id ∧ s.member_id = mid))
        = S.filter (fun s =>
            decide (s.expense_id = e.id ∧ s.member_id = mid)
            || decide (s.expense_id ∈ E'.map Expense.id ∧ s.member_id = mid)) := by
      apply List.filter_congr
      intro x _
      simp [List.mem_cons, or_and_right]
    rw [hsplit, sum_filter_or Split.amount
      (fun s => decide (s.expense_id = e.id ∧ s.member_id = mid))
      (fun s => decide (s.expense_id ∈ E'.map Expense.id ∧ s.member_id = mid))
      S ?_]
    intro x _ ⟨h1, h2⟩
    have h1' : x.expense_id = e.id := (of_decide_eq_true h1).1
    have h2' : x.expense_id ∈ E'.map Expense.id := (of_decide_eq_true h2).1
    exact heid (h1' ▸ h2')

/-- Transforming every split without touching its key or amount leaves each
expense's first matching split amount unchanged. -/
lemma shareOf_map (f : Split → Split)
    (hf : ∀ s, (f s).expense_id = s.expense_id ∧ (f s).member_id = s.member_id
      ∧ (f s).amount = s.amount) (eid mid : Nat) :
    ∀ S : List Split, shareOf (S.map f) eid mid = shareOf S eid mid := by
  intro S
  induction S with
  | nil => rfl
  | cons s S' ih =>
    by_cases hc : s.expense_id = eid ∧ s.member_id = mid
    · have h1 : (fun s => decide (s.expense_id = eid ∧ s.member_id = mid)) (f s)
          = true := by
        simp [(hf s).1, (hf s).2.1, hc.1, hc.2]
      have h2 : (fun s => decide (s.expense_id = eid ∧ s.member_id = mid)) s
          = true := by simp [hc.1, hc.2]
      unfold shareOf
      rw [List.map_cons, List.find?_cons_of_pos (S'.map f) h1,
        List.find?_cons_of_pos S' h2]
      exact (hf s).2.2
    · have h1 : (fun s => decide (s.expense_id = eid ∧ s.member_id = mid)) (f s)
          = false := by
        simp only [decide_eq_false_iff_not]
        rw [(hf s).1, (hf s).2.1]
        exact hc
      have h2 : (fun s => decide (s.expense_id = eid ∧ s.member_id = mid)) s
          = false := by simpa using hc
      unfold shareOf
      rw [List.map_cons, List.find?_cons_of_neg (S'.map f) (by simp [h1]),
        List.find?_cons_of_neg S' (by simp [h2])]
      exact ih

/-- C2: for every active member of a ledger with unique expense ids, unique
split keys, and splits referencing existing expenses, `calculate_balances`
produces an entry whose `total_paid` sums the expenses the member's user
paid, whose `total_share` sums the split amounts assigned to the member, and
whose `balance` is their difference; the result ignores every settlement
field of the splits; and on the ledger with one expense of 300 paid by user
1 and split 100/100/100 among members 1, 2, 3, the balances are
+200, -100, -100 and sum to zero. -/
theorem spec_C2 (ld : Ledger) (m : Member)
    (hm : m ∈ ld.members) (_hact : m.status = MemberStatus.active)
    (hE : (ld.expenses.map Expense.id).Nodup)
    (hS : (ld.splits.map splitKey).Nodup)
    (href : ∀ s ∈ ld.splits, s.expense_id ∈ ld.expenses.map Expense.id)
    (f : Split → Split)
    (hf : ∀ s, (f s).expense_id = s.expense_id ∧ (f s).member_id = s.member_id
      ∧ (f s).amount = s.amount) :
    ({ user := m.user,
       total_paid := ((ld.expenses.filter fun e => e.paid_by = m.user).map
         Expense.amount).sum,
       total_share := ((ld.splits.filter fun s => s.member_id = m.id).map
         Split.amount).sum,
       balance := ((ld.expenses.filter fun e => e.paid_by = m.user).map
           Expense.amount).sum
         - ((ld.splits.filter fun s => s.member_id = m.id).map
             Split.amount).sum } : BalanceEntry) ∈ calculate_balances ld ∧
    calculate_balances { ld with splits := ld.splits.map f }
      = calculate_balances ld ∧
    (calculate_balances
        ⟨[⟨1, 1, Role.admin, MemberStatus.active⟩,
          ⟨2, 2, Role.member, MemberStatus.active⟩,
          ⟨3, 3, Role.member, MemberStatus.active⟩],
         [⟨1, 300, 1, SplitMethod.equal⟩],
         [default_split 1 1 100 0, default_split 1 2 100 0,
          default_split 1 3 100 0]⟩
        = [⟨1, 300, 100, 200⟩, ⟨2, 0, 100, -100⟩, ⟨3, 0, 100, -100⟩] ∧
      ([(200 : ℚ), -100, -100]).sum = 0) := by
  have hshare : ∀ mid : Nat,
      ld.expenses.foldl
        (fun acc e =>
          match ld.splits.find?
              (fun s => s.expense_id = e.id ∧ s.member_id = mid) with
          | some s => acc + s.amount
          | none => acc)
        (0 : ℚ)
      = ((ld.splits.filter fun s => s.member_id = mid).map Split.amount).sum := by
    intro mid
    rw [foldl_share_eq ld.splits mid ld.expenses 0, zero_add,
      sum_shareOf mid ld.expenses ld.splits hE hS]
    apply congrArg
    apply congrArg
    apply List.filter_congr
    intro s hs
    simp [href s hs]
  refine ⟨?_, ?_, ?_, ?_⟩
  · apply List.mem_map.mpr
    refine ⟨m, hm, ?_⟩
    simp only
    rw [hshare m.id]
  · unfold calculate_balances
    apply List.map_congr_left
    intro m' _
    simp only
    have hpaid : ld.expenses = ld.expenses := rfl
    have hsh : ld.expenses.foldl
        (fun acc e =>
          match (ld.splits.map f).find?
              (fun s => s.expense_id = e.id ∧ s.member_id = m'.id) with
          | some s => acc + s.amount
          | none => acc)
        (0 : ℚ)
        = ld.expenses.foldl
          (fun acc e =>
            match ld.splits.find?
                (fun s => s.expense_id = e.id ∧ s.member_id = m'.id) with
            | some s => acc + s.amount
            | none => acc)
          (0 : ℚ) := by
      rw [foldl_share_eq (ld.splits.map f) m'.id ld.expenses 0,
        foldl_share_eq ld.splits m'.id ld.expenses 0]
      congr 1
      apply congrArg
      apply List.map_congr_left
      intro e _
      exact shareOf_map f hf e.id m'.id ld.splits
    rw [hsh]
  · simp [calculate_balances, List.find?, default_split]
    norm_num
  · norm_num

theorem spec_C2_witness :
    ({ user := 1, total_paid := 300, total_share := 100, balance := 200 }
        : BalanceEntry) ∈ calculate_balances
      ⟨[⟨1, 1, Role.admin, MemberStatus.active⟩,
        ⟨2, 2, Role.member, MemberStatus.active⟩,
        ⟨3, 3, Role.member, MemberStatus.active⟩],
       [⟨1, 300, 1, SplitMethod.equal⟩],
       [default_split 1 1 100 0, default_split 1 2 100 0,
        default_split 1 3 100 0]⟩ ∧
    calculate_balances
        ⟨[⟨1, 1, Role.admin, MemberStatus.active⟩,
          ⟨2, 2, Role.member, MemberStatus.active⟩,
          ⟨3, 3, Role.member, MemberStatus.active⟩],
         [⟨1, 300, 1, SplitMethod.equal⟩],
         ([default_split 1 1 100 0, default_split 1 2 100 0,
           default_split 1 3 100 0].map
           (fun s => { s with is_settled := true, settled_at := some 9 }))⟩
      = calculate_balances
        ⟨[⟨1, 1, Role.admin, MemberStatus.active⟩,
          ⟨2, 2, Role.member, MemberStatus.active⟩,
          ⟨3, 3, Role.member, MemberStatus.active⟩],
         [⟨1, 300, 1, SplitMethod.equal⟩],
         [default_split 1 1 100 0, default_split 1 2 100 0,
          default_split 1 3 100 0]⟩ := by
  have h := spec_C2
    ⟨[⟨1, 1, Role.admin, MemberStatus.active⟩,
      ⟨2, 2, Role.member, MemberStatus.active⟩,
      ⟨3, 3, Role.member, MemberStatus.active⟩],
     [⟨1, 300, 1, SplitMethod.equal⟩],
     [default_split 1 1 100 0, default_split 1 2 100 0,
      default_split 1 3 100 0]⟩
    ⟨1, 1, Role.admin, MemberStatus.active⟩
    (by simp) rfl (by simp) (by decide)
    (by intro s hs
        fin_cases hs <;> simp [default_split])
    (fun s => { s with is_settled := true, settled_at := some 9 })
    (by intro s; exact ⟨rfl, rfl, rfl⟩)
  refine ⟨?_, h.2.1⟩
  have h1 := h.1
  simpa [default_split, splitKey,
    show (300 : ℚ) - 100 = 200 from by norm_num] using h1

/-- `SharedExpenseSplit.settle`: marks the split settled, recording the
settlement time and method. -/
def settle (s : Split) (method : String) (now : Nat) : Split :=
  { s with
    is_settled := true
    settled_at := some now
    settlement_method := method }

/-- `SharedPayment.confirm_payment`: sets `is_confirmed`, `confirmed_by` and
`confirmed_at`, saves, then calls `split.settle(method=self.payment_method)`
on every split of `related_splits`. -/
def confirm_payment (p : Payment) (splits : List Split) (user now : Nat) :
    Payment × List Split :=
  ({ p with
      is_confirmed := true
      confirmed_by := some user
      confirmed_at := some now },
   splits.map fun s =>
     if splitKey s ∈ p.related_splits then settle s p.payment_method now else s)

/-- C3: after `confirm_payment`, the payment is confirmed with
`confirmed_by` and `confirmed_at` set, and every split in its
`related_splits` is settled with the payment's method and the confirmation
timestamp recorded — all established by the one operation. -/
theorem spec_C3 (p : Payment) (splits : List Split) (user now : Nat) :
    (confirm_payment p splits user now).1.is_confirmed = true ∧
    (confirm_payment p splits user now).1.confirmed_by = some user ∧
    (confirm_payment p splits user now).1.confirmed_at = some now ∧
    (∀ s' ∈ (confirm_payment p splits user now).2,
      splitKey s' ∈ p.related_splits →
        s'.is_settled = true ∧ s'.settled_at = some now ∧
        s'.settlement_method = p.payment_method) := by
  refine ⟨rfl, rfl, rfl, ?_⟩
  intro s' hs' hrel
  obtain ⟨s, hs, rfl⟩ := List.mem_map.mp hs'
  by_cases hk : splitKey s ∈ p.related_splits
  · simp [hk, settle]
  · rw [if_neg hk] at hrel
    exact absurd hrel hk

theorem spec_C3_witness :
    (confirm_payment
        ⟨2, 1, 25, "cash", false, none, none, [(1, 2)]⟩
        [default_split 1 2 25 50] 7 42).1.is_confirmed = true ∧
    (confirm_payment
        ⟨2, 1, 25, "cash", false, none, none, [(1, 2)]⟩
        [default_split 1 2 25 50] 7 42).1.confirmed_by = some 7 ∧
    (confirm_payment
        ⟨2, 1, 25, "cash", false, none, none, [(1, 2)]⟩
        [default_split 1 2 25 50] 7 42).1.confirmed_at = some 42 ∧
    (∀ s' ∈ (confirm_payment
        ⟨2, 1, 25, "cash", false, none, none, [(1, 2)]⟩
        [default_split 1 2 25 50] 7 42).2,
      splitKey s' ∈ [(1, 2)] →
        s'.is_settled = true ∧ s'.settled_at = some 42 ∧
        s'.settlement_method = "cash") :=
  spec_C3 ⟨2, 1, 25, "cash", false, none, none, [(1, 2)]⟩
    [default_split 1 2 25 50] 7 42

/-- Modelled from the spec: the request-level payment-confirmation
operation (`views.confirm_payment`, routed by `shared_ledger/urls.py` but
not present under `src/`).  Per the error-handling design (§7), confirming
an already-confirmed payment surfaces `StateError`; otherwise the
model-level `SharedPayment.confirm_payment` runs. -/
def confirm_payment_request (p : Payment) (splits : List Split)
    (user now : Nat) : Except LedgerError (Payment × List Split) :=
  if p.is_confirmed then Except.error LedgerError.StateError
  else Except.ok (confirm_payment p splits user now)

/-- C4: confirming a payment twice returns `StateError` on the second
attempt, and the splits referenced by the payment remain settled and are
not processed again (the erroring request leaves the state untouched). -/
theorem spec_C4 (p : Payment) (splits : List Split) (u t u' t' : Nat) :
    confirm_payment_request (confirm_payment p splits u t).1
        (confirm_payment p splits u t).2 u' t'
      = Except.error LedgerError.StateError ∧
    (∀ s' ∈ (confirm_payment p splits u t).2,
      splitKey s' ∈ p.related_splits → s'.is_settled = true) := by
  constructor
  · simp [confirm_payment_request, confirm_payment]
  · intro s' hs' hrel
    obtain ⟨s, hs, rfl⟩ := List.mem_map.mp hs'
    by_cases hk : splitKey s ∈ p.related_splits
    · simp [hk, settle]
    · rw [if_neg hk] at hrel
      exact absurd hrel hk

theorem spec_C4_witness :
    confirm_payment_request
        (confirm_payment ⟨2, 1, 25, "cash", false, none, none, [(1, 2)]⟩
          [default_split 1 2 25 50] 7 42).1
        (confirm_payment ⟨2, 1, 25, "cash", false, none, none, [(1, 2)]⟩
          [default_split 1 2 25 50] 7 42).2 8 43
      = Except.error LedgerError.StateError ∧
    (∀ s' ∈ (confirm_payment ⟨2, 1, 25, "cash", false, none, none, [(1, 2)]⟩
        [default_split 1 2 25 50] 7 42).2,
      splitKey s' ∈ [(1, 2)] → s'.is_settled = true) :=
  spec_C4 ⟨2, 1, 25, "cash", false, none, none, [(1, 2)]⟩
    [default_split 1 2 25 50] 7 42 8 43

/-- Modelled from the spec: the exact-split creation policy (§4.1), handled
by the expense-creation view that `shared_ledger/urls.py` routes but that
is not present under `src/`: the caller supplies each member's owed amount;
the policy validates that the supplied amounts sum to the expense amount,
rejecting with `ValidationError` otherwise, and persists one split per
supplied `(member, amount)` pair only when the sums match. -/
def create_exact_splits (e : Expense) (supplied : List (Nat × ℚ))
    (splits : List Split) : Except LedgerError (List Split) :=
  if (supplied.map Prod.snd).sum = e.amount then
    Except.ok (splits ++ supplied.map fun pr => default_split e.id pr.1 pr.2 0)
  else Except.error LedgerError.ValidationError

/-- C5: creating an exact-split expense fails with `ValidationError`
exactly when the supplied amounts do not sum to the expense amount, and the
supplied amounts are persisted (one split per supplied pair) exactly when
the sums match. -/
theorem spec_C5 (e : Expense) (supplied : List (Nat × ℚ))
    (splits : List Split) :
    (create_exact_splits e supplied splits
        = Except.error LedgerError.ValidationError
      ↔ (supplied.map Prod.snd).sum ≠ e.amount) ∧
    ((supplied.map Prod.snd).sum = e.amount →
      create_exact_splits e supplied splits
        = Except.ok (splits
            ++ supplied.map fun pr => default_split e.id pr.1 pr.2 0)) := by
  unfold create_exact_splits
  by_cases h : (supplied.map Prod.snd).sum = e.amount
  · rw [if_pos h]
    exact ⟨by simp [h], fun _ => rfl⟩
  · rw [if_neg h]
    exact ⟨by simp [h], fun hc => absurd hc h⟩

theorem spec_C5_witness :
    create_exact_splits ⟨1, 100, 1, SplitMethod.exact⟩ [(1, 60), (2, 30)] []
      = Except.error LedgerError.ValidationError ∧
    create_exact_splits ⟨1, 100, 1, SplitMethod.exact⟩ [(1, 60), (2, 40)] []
      = Except.ok [default_split 1 1 60 0, default_split 1 2 40 0] := by
  constructor
  · exact (spec_C5 ⟨1, 100, 1, SplitMethod.exact⟩ [(1, 60), (2, 30)] []).1.mpr
      (by norm_num)
  · have h := (spec_C5 ⟨1, 100, 1, SplitMethod.exact⟩ [(1, 60), (2, 40)] []).2
      (by norm_num)
    simpa using h

/-- `SharedLedgerInvite.accept`: succeeds only while the invite is pending
and `timezone.now() <= expires_at`; on success it transitions the invite to
`accepted`, records `invited_user` and `responded_at`, and creates the
membership row with the proposed role (the member's `status` takes its
model-field default `active`); otherwise it returns `False` and changes
nothing. -/
def accept (inv : Invite) (members : List Member) (user now newId : Nat) :
    Bool × Invite × List Member :=
  if inv.status = InviteStatus.pending ∧ now ≤ inv.expires_at then
    (true,
     { inv with
        status := InviteStatus.accepted
        invited_user := some user
        responded_at := some now },
     members ++ [(⟨newId, user, inv.proposed_role, MemberStatus.active⟩ : Member)])
  else (false, inv, members)

/-- C6: accepting an invite succeeds exactly when its status is pending and
the current time is at or before `expires_at`; on success the invite
becomes `accepted` with `responded_at` recorded and exactly one member row
with the proposed role is created; an accept after `expires_at` fails,
creates no member and leaves the invite unchanged. -/
theorem spec_C6 (inv : Invite) (members : List Member) (user now newId : Nat) :
    ((accept inv members user now newId).1 = true
      ↔ (inv.status = InviteStatus.pending ∧ now ≤ inv.expires_at)) ∧
    ((accept inv members user now newId).1 = true →
      (accept inv members user now newId).2.1.status = InviteStatus.accepted ∧
      (accept inv members user now newId).2.1.responded_at = some now ∧
      (accept inv members user now newId).2.2
        = members
          ++ [(⟨newId, user, inv.proposed_role, MemberStatus.active⟩ : Member)]) ∧
    (inv.expires_at < now →
      accept inv members user now newId = (false, inv, members)) := by
  by_cases h : inv.status = InviteStatus.pending ∧ now ≤ inv.expires_at
  · unfold accept
    rw [if_pos h]
    refine ⟨by simp [h], fun _ => ⟨rfl, rfl, rfl⟩, fun hexp => ?_⟩
    exact absurd h.2 (by omega)
  · unfold accept
    rw [if_neg h]
    exact ⟨by simp [h], by simp, fun _ => rfl⟩

theorem spec_C6_witness :
    ((accept ⟨InviteStatus.pending, 10, Role.member, 1, 0, none, none⟩
        [] 5 9 4).1 = true
      ↔ ((InviteStatus.pending = InviteStatus.pending) ∧ (9 : Nat) ≤ 10)) ∧
    ((accept ⟨InviteStatus.pending, 10, Role.member, 1, 0, none, none⟩
        [] 5 9 4).1 = true →
      (accept ⟨InviteStatus.pending, 10, Role.member, 1, 0, none, none⟩
        [] 5 9 4).2.1.status = InviteStatus.accepted ∧
      (accept ⟨InviteStatus.pending, 10, Role.member, 1, 0, none, none⟩
        [] 5 9 4).2.1.responded_at = some 9 ∧
      (accept ⟨InviteStatus.pending, 10, Role.member, 1, 0, none, none⟩
        [] 5 9 4).2.2
        = [] ++ [(⟨4, 5, Role.member, MemberStatus.active⟩ : Member)]) ∧
    ((10 : Nat) < 9 →
      accept ⟨InviteStatus.pending, 10, Role.member, 1, 0, none, none⟩
        [] 5 9 4
        = (false, ⟨InviteStatus.pending, 10, Role.member, 1, 0, none, none⟩,
            [])) :=
  spec_C6 ⟨InviteStatus.pending, 10, Role.member, 1, 0, none, none⟩ [] 5 9 4

/-- `create_equal_splits` only appends new rows, and every appended row is
created unsettled. -/
lemma create_equal_splits_prefix (e : Expense) (ms : List Member)
    (splits ss : List Split)
    (h : create_equal_splits e ms splits = some ss) :
    ∃ t, ss = splits ++ t ∧ ∀ x ∈ t, x.is_settled = false := by
  unfold create_equal_splits at h
  by_cases hl : (activeMembers ms).length = 0
  · rw [if_pos hl] at h
    cases h
  · rw [if_neg hl] at h
    have heq := Option.some.inj h
    obtain ⟨t, ht, hxt⟩ := foldl_get_or_create_prefix e.id
      (quantize2 (e.amount / ((activeMembers ms).length : ℚ)))
      (quantize2 ((100 : ℚ) / ((activeMembers ms).length : ℚ)))
      (activeMembers ms) splits
    refine ⟨t, by rw [← heq, ht], ?_⟩
    intro x hx
    obtain ⟨m, _, rfl⟩ := hxt x hx
    rfl

/-- The split-and-payment state of a ledger acted on by the settlement
engine. -/
structure LState where
  splits : List Split
  payments : List Payment
deriving DecidableEq, Repr

/-- The operations of the settlement engine that touch split rows:
equal-split creation (`SharedExpense.create_equal_splits`), an explicit
`SharedExpenseSplit.settle` call, and `SharedPayment.confirm_payment`. -/
inductive LOp where
  | createSplits (e : Expense) (ms : List Member)
  | settleSplit (key : Nat × Nat) (method : String)
  | confirmPayment (idx : Nat) (user : Nat)
deriving DecidableEq, Repr

/-- One step of the settlement engine at time `now`; `none` models a raised
error (zero active members, unknown payment index). -/
def applyOp (σ : LState) (op : LOp) (now : Nat) : Option LState :=
  match op with
  | LOp.createSplits e ms =>
      (create_equal_splits e ms σ.splits).map fun ss =>
        { σ with splits := ss }
  | LOp.settleSplit k method =>
      some { σ with
        splits := σ.splits.map fun s =>
          if splitKey s = k then settle s method now else s }
  | LOp.confirmPayment i user =>
      match σ.payments[i]? with
      | none => none
      | some p =>
          some { splits := (confirm_payment p σ.splits user now).2,
                 payments := σ.payments.set i (confirm_payment p σ.splits user now).1 }

/-- C8: every settlement-engine step preserves the invariant
`is_settled → settled_at is set`, and a split row passes from pending to
settled only by becoming `settle s method now` — i.e. with its settlement
timestamp and method recorded — and only under an explicit `settleSplit` of
its key or a `confirmPayment` whose payment references its key. -/
theorem spec_C8 (σ : LState) (op : LOp) (t : Nat) (σ' : LState)
    (hstep : applyOp σ op t = some σ')
    (hinv : ∀ s ∈ σ.splits, s.is_settled = true → s.settled_at.isSome) :
    (∀ s ∈ σ'.splits, s.is_settled = true → s.settled_at.isSome) ∧
    (∀ (i : Nat) (s s' : Split), σ.splits[i]? = some s → σ'.splits[i]? = some s' →
      s.is_settled = false → s'.is_settled = true →
      (∃ m, s' = settle s m t) ∧
      ((∃ m, op = LOp.settleSplit (splitKey s) m) ∨
       (∃ j u p, op = LOp.confirmPayment j u ∧ σ.payments[j]? = some p ∧
         splitKey s ∈ p.related_splits))) := by
  cases op with
  | createSplits e ms =>
    cases hc : create_equal_splits e ms σ.splits with
    | none => simp [applyOp, hc] at hstep
    | some ss =>
      have hσ' : σ' = { σ with splits := ss } := by
        simp [applyOp, hc] at hstep
        exact hstep.symm
      obtain ⟨tnew, htnew, hxt⟩ := create_equal_splits_prefix e ms σ.splits ss hc
      subst hσ'
      constructor
      · intro s hs hset
        simp only at hs
        rw [htnew] at hs
        rcases List.mem_append.mp hs with h | h
        · exact hinv s h hset
        · rw [hxt s h] at hset
          cases hset
      · intro i s s' hgs hgs' hsf hst
        have hlt : i < σ.splits.length := by
          by_contra hge
          rw [List.getElem?_eq_none (by omega)] at hgs
          cases hgs
        simp only at hgs'
        rw [htnew, List.getElem?_append_left hlt, hgs] at hgs'
        have : s = s' := Option.some.inj hgs'
        rw [← this, hsf] at hst
        cases hst
  | settleSplit k method =>
    have hσ' : σ' = { σ with
        splits := σ.splits.map fun s =>
          if splitKey s = k then settle s method t else s } := by
      simpa [applyOp] using hstep.symm
    subst hσ'
    constructor
    · intro s' hs' hset
      simp only at hs'
      obtain ⟨s, hs, rfl⟩ := List.mem_map.mp hs'
      by_cases hk : splitKey s = k
      · simp [hk, settle]
      · rw [if_neg hk] at hset ⊢
        exact hinv s hs hset
    · intro i s s' hgs hgs' hsf hst
      simp only [List.getElem?_map, hgs, Option.map_some] at hgs'
      have hs2 : (if splitKey s = k then settle s method t else s) = s' :=
        Option.some.inj hgs'
      by_cases hk : splitKey s = k
      · rw [if_pos hk] at hs2
        exact ⟨⟨method, hs2.symm⟩, Or.inl ⟨method, by rw [hk]⟩⟩
      · rw [if_neg hk] at hs2
        rw [← hs2, hsf] at hst
        cases hst
  | confirmPayment i u =>
    cases hp : σ.payments[i]? with
    | none => simp [applyOp, hp] at hstep
    | some p =>
      have hσ' : σ'
          = { splits := (confirm_payment p σ.splits u t).2
              payments := σ.payments.set i (confirm_payment p σ.splits u t).1 } := by
        simp [applyOp, hp] at hstep
        exact hstep.symm
      subst hσ'
      constructor
      · intro s' hs' hset
        simp only [confirm_payment] at hs'
        obtain ⟨s, hs, rfl⟩ := List.mem_map.mp hs'
        by_cases hk : splitKey s ∈ p.related_splits
        · simp [hk, settle]
        · rw [if_neg hk] at hset ⊢
          exact hinv s hs hset
      · intro j s s' hgs hgs' hsf hst
        simp only [confirm_payment, List.getElem?_map, hgs,
          Option.map_some] at hgs'
        have hs2 : (if splitKey s ∈ p.related_splits
              then settle s p.payment_method t else s) = s' :=
          Option.some.inj hgs'
        by_cases hk : splitKey s ∈ p.related_splits
        · rw [if_pos hk] at hs2
          exact ⟨⟨p.payment_method, hs2.symm⟩,
            Or.inr ⟨i, u, p, rfl, hp, hk⟩⟩
        · rw [if_neg hk] at hs2
          rw [← hs2, hsf] at hst
          cases hst

theorem spec_C8_witness :
    applyOp ⟨[default_split 1 2 25 50],
        [⟨2, 1, 25, "cash", false, none, none, [(1, 2)]⟩]⟩
      (LOp.settleSplit (1, 2) "cash") 5
      = some ⟨[settle (default_split 1 2 25 50) "cash" 5],
          [⟨2, 1, 25, "cash", false, none, none, [(1, 2)]⟩]⟩ ∧
    (∀ s ∈ [settle (default_split 1 2 25 50) "cash" 5],
      s.is_settled = true → s.settled_at.isSome) := by
  have happ : applyOp ⟨[default_split 1 2 25 50],
      [⟨2, 1, 25, "cash", false, none, none, [(1, 2)]⟩]⟩
      (LOp.settleSplit (1, 2) "cash") 5
      = some ⟨[settle (default_split 1 2 25 50) "cash" 5],
          [⟨2, 1, 25, "cash", false, none, none, [(1, 2)]⟩]⟩ := by
    simp [applyOp, splitKey, default_split]
  have h := spec_C8 ⟨[default_split 1 2 25 50],
      [⟨2, 1, 25, "cash", false, none, none, [(1, 2)]⟩]⟩
    (LOp.settleSplit (1, 2) "cash") 5
    ⟨[settle (default_split 1 2 25 50) "cash" 5],
      [⟨2, 1, 25, "cash", false, none, none, [(1, 2)]⟩]⟩
    happ
    (by intro s hs hset
        fin_cases hs
        cases hset)
  exact ⟨happ, h.1⟩

/-- A row of `budget_items` (`BudgetItem`), restricted to the allocation
and the calculated statistics `Budget.calculate_spent_amount` updates. -/
structure BudgetItem where
  budgeted_amount : ℚ
  spent_amount : ℚ
  remaining_amount : ℚ
  percentage_used : ℚ
deriving DecidableEq, Repr

/-- A row of `budgets` (`Budget`) with its related `budget_items`,
restricted to the fields the rollup/alerting logic reads and writes.  The
Python float `percentage_used` is modelled as a rational: the code only
compares it, and comparison of floats agrees with comparison of the
rationals they denote. -/
structure Budget where
  total_budget_amount : ℚ
  alert_threshold_percentage : ℤ
  total_spent : ℚ
  remaining_amount : ℚ
  percentage_used : ℚ
  last_calculated_at : Option Nat
  alert_sent_at : Option Nat
  items : List BudgetItem
deriving DecidableEq, Repr

/-- `Budget.calculate_spent_amount`: each item's spend is the summed amount
of its matching expense transactions (passed as `item_spents`, one value
per item, abstracting the ORM query); the item statistics and then the
budget statistics are recalculated and `last_calculated_at` is stamped.
`alert_sent_at` is not touched. -/
def calculate_spent_amount (b : Budget) (item_spents : List ℚ) (now : Nat) :
    Budget :=
  let pairs := b.items.zip item_spents
  let items' := pairs.map fun pr =>
    { pr.1 with
      spent_amount := pr.2
      remaining_amount := pr.1.budgeted_amount - pr.2
      percentage_used :=
        if 0 < pr.1.budgeted_amount then pr.2 / pr.1.budgeted_amount * 100
        else 0 }
  let spent := (pairs.map Prod.snd).sum
  { b with
    items := items'
    total_spent := spent
    remaining_amount := b.total_budget_amount - spent
    percentage_used :=
      if 0 < b.total_budget_amount then spent / b.total_budget_amount * 100
      else 0
    last_calculated_at := some now }

/-- `Budget.check_alert_threshold`: returns `True` (and records
`alert_sent_at`) only when `percentage_used` has reached
`alert_threshold_percentage` and `not self.alert_sent_at`. -/
def check_alert_threshold (b : Budget) (now : Nat) : Bool × Budget :=
  if (b.alert_threshold_percentage : ℚ) ≤ b.percentage_used
      ∧ b.alert_sent_at = none then
    (true, { b with alert_sent_at := some now })
  else (false, b)

/-- The budget operations that run over a budget's lifetime. -/
inductive BOp where
  | check (now : Nat)
  | recalc (item_spents : List ℚ) (now : Nat)
deriving DecidableEq, Repr

/-- One budget operation: the new budget and whether the alert fired. -/
def bstep (b : Budget) (op : BOp) : Budget × Bool :=
  match op with
  | BOp.check now =>
      ((check_alert_threshold b now).2, (check_alert_threshold b now).1)
  | BOp.recalc sp now => (calculate_spent_amount b sp now, false)

/-- Run a sequence of budget operations, counting how often the threshold
alert fired. -/
def runOps (b : Budget) : List BOp → Budget × Nat
  | [] => (b, 0)
  | op :: ops =>
      let r := bstep b op
      let rest := runOps r.1 ops
      (rest.1, (if r.2 then 1 else 0) + rest.2)

/-- No budget operation changes a recorded `alert_sent_at`. -/
lemma bstep_sent_eq (b : Budget) (op : BOp) (h : b.alert_sent_at.isSome) :
    (bstep b op).1.alert_sent_at = b.alert_sent_at := by
  cases op with
  | check t =>
    have hne : ¬((b.alert_threshold_percentage : ℚ) ≤ b.percentage_used
        ∧ b.alert_sent_at = none) := by
      rintro ⟨-, hnone⟩
      rw [hnone] at h
      simp at h
    simp [bstep, check_alert_threshold, hne]
  | recalc sp t => rfl

/-- A fired alert implies the alert was unsent before and is recorded
after. -/
lemma bstep_fired (b : Budget) (op : BOp) (h : (bstep b op).2 = true) :
    b.alert_sent_at = none ∧ (bstep b op).1.alert_sent_at.isSome := by
  cases op with
  | check t =>
    by_cases hc : (b.alert_threshold_percentage : ℚ) ≤ b.percentage_used
        ∧ b.alert_sent_at = none
    · exact ⟨hc.2, by simp [bstep, check_alert_threshold, hc]⟩
    · exfalso
      have : (bstep b (BOp.check t)).2 = false := by
        simp [bstep, check_alert_threshold, hc]
      rw [this] at h
      cases h
  | recalc sp t => cases h

/-- Once `alert_sent_at` is recorded, no later operation fires the alert. -/
lemma runOps_sent : ∀ (ops : List BOp) (b : Budget),
    b.alert_sent_at.isSome → (runOps b ops).2 = 0 := by
  intro ops
  induction ops with
  | nil => intro b _; rfl
  | cons op ops ih =>
    intro b h
    have hf : (bstep b op).2 = false := by
      cases hff : (bstep b op).2 with
      | false => rfl
      | true =>
        have := (bstep_fired b op hff).1
        rw [this] at h
        simp at h
    have h' : (bstep b op).1.alert_sent_at.isSome := by
      rw [bstep_sent_eq b op h]
      exact h
    simp [runOps, hf, ih _ h']

/-- The alert fires at most once over any sequence of operations. -/
lemma runOps_le_one : ∀ (ops : List BOp) (b : Budget), (runOps b ops).2 ≤ 1 := by
  intro ops
  induction ops with
  | nil => intro b; simp [runOps]
  | cons op ops ih =>
    intro b
    cases hf : (bstep b op).2 with
    | false =>
      simp [runOps, hf]
      exact ih _
    | true =>
      have hsome := (bstep_fired b op hf).2
      simp [runOps, hf, runOps_sent ops _ hsome]

/-- C10: `check_alert_threshold` returns true exactly when
`percentage_used` has reached the threshold and `alert_sent_at` is unset;
firing records `alert_sent_at`; no operation (recalculation or a further
check) clears a recorded `alert_sent_at`; once it is recorded no later
operation fires; and over any operation sequence the alert fires at most
once. -/
theorem spec_C10 (b : Budget) (t : Nat) (ops : List BOp) :
    ((check_alert_threshold b t).1 = true
      ↔ ((b.alert_threshold_percentage : ℚ) ≤ b.percentage_used
          ∧ b.alert_sent_at = none)) ∧
    ((check_alert_threshold b t).1 = true →
      (check_alert_threshold b t).2.alert_sent_at = some t) ∧
    (∀ t', b.alert_sent_at = some t' →
      ∀ op, (bstep b op).1.alert_sent_at = some t') ∧
    (b.alert_sent_at.isSome → (runOps b ops).2 = 0) ∧
    (runOps b ops).2 ≤ 1 := by
  refine ⟨?_, ?_, ?_, runOps_sent ops b, runOps_le_one ops b⟩
  · by_cases hc : (b.alert_threshold_percentage : ℚ) ≤ b.percentage_used
        ∧ b.alert_sent_at = none
    · simp [check_alert_threshold, hc]
    · simp [check_alert_threshold, hc]
  · by_cases hc : (b.alert_threshold_percentage : ℚ) ≤ b.percentage_used
        ∧ b.alert_sent_at = none
    · intro _
      simp [check_alert_threshold, hc]
    · intro hfired
      exfalso
      have : (check_alert_threshold b t).1 = false := by
        simp [check_alert_threshold, hc]
      rw [this] at hfired
      cases hfired
  · intro t' hsent op
    rw [bstep_sent_eq b op (by rw [hsent]; rfl)]
    exact hsent

theorem spec_C10_witness :
    ((check_alert_threshold
        ⟨1000, 80, 850, 150, 85, none, none, []⟩ 3).1 = true
      ↔ (((80 : ℤ) : ℚ) ≤ 85 ∧ (none : Option Nat) = none)) ∧
    ((check_alert_threshold
        ⟨1000, 80, 850, 150, 85, none, none, []⟩ 3).1 = true →
      (check_alert_threshold
        ⟨1000, 80, 850, 150, 85, none, none, []⟩ 3).2.alert_sent_at
        = some 3) ∧
    (∀ t', (none : Option Nat) = some t' →
      ∀ op, (bstep ⟨1000, 80, 850, 150, 85, none, none, []⟩ op).1.alert_sent_at
        = some t') ∧
    ((none : Option Nat).isSome →
      (runOps ⟨1000, 80, 850, 150, 85, none, none, []⟩
        [BOp.check 3, BOp.check 4]).2 = 0) ∧
    (runOps ⟨1000, 80, 850, 150, 85, none, none, []⟩
      [BOp.check 3, BOp.check 4]).2 ≤ 1 :=
  spec_C10 ⟨1000, 80, 850, 150, 85, none, none, []⟩ 3 [BOp.check 3, BOp.check 4]

end MoneyTrack
